import Mathlib

/-!
# Verification of the Kasiski-examination repository

Shallow embedding of `kasiski_examination.py` and `language.py`.

* Python strings are `List Char`; `text[i:i+L]` is `(text.drop i).take L`.
* Python dicts (insertion ordered) are association lists; `d[k] = f(d[k])`
  updates the first matching key in place and appends a new key at the end,
  exactly as CPython insertion-ordered dicts behave.
* Python sets built by repeated `add` are duplicate-free lists
  (`insertOnce` appends an element only when absent).
* JSON / float frequency values are modelled as rationals `ℚ`.
* `raise ValueError` / `FileNotFoundError` become `Except Err _` results,
  with `Err.invalidArgument` for out-of-range arguments and `Err.notFound`
  for a language that is absent from the reference-table store.
* The `frequency_tables` directory is modelled as an association list
  `Store` from language name to its frequency table; listing the directory
  is taking the keys, opening `frequency_tables/{name}.json` is `loadTable`.
-/

/-- Error kinds raised by the Python code (`ValueError` for invalid
arguments, `FileNotFoundError`/`ValueError` for a missing language). -/
inductive Err where
  | invalidArgument : Err
  | notFound : Err
deriving DecidableEq, Repr

/-! ## Generic insertion-ordered association lists (Python dict) -/

/-- Keys of an association list, in insertion order. -/
def keysOf {α β : Type} (d : List (α × β)) : List α := d.map Prod.fst

/-- Update the value at key `k` with `f`, or append `(k, v0)` when `k` is
absent: the semantics of `d[k] = f(d[k]) if k in d else v0` on an
insertion-ordered Python dict. -/
def updA {α β : Type} [DecidableEq α] (k : α) (f : β → β) (v0 : β) :
    List (α × β) → List (α × β)
  | [] => [(k, v0)]
  | p :: rest => if p.1 = k then (p.1, f p.2) :: rest else p :: updA k f v0 rest

/-- Look up key `k`, returning `w0` when absent (`dict.get(k, w0)`). -/
def lookA {α β : Type} [DecidableEq α] (w0 : β) : List (α × β) → α → β
  | [], _ => w0
  | p :: rest, k => if p.1 = k then p.2 else lookA w0 rest k

/-- `set.add`: append an element only when it is not already present. -/
def insertOnce (l : List Nat) (x : Nat) : List Nat :=
  if x ∈ l then l else l ++ [x]

/-! ## `kasiski_examination.py` -/

/-- The substring `text[i:i+L]`. -/
def subAt (text : List Char) (i L : Nat) : List Char := (text.drop i).take L

/-- `sequences[sequence].append(i)` with creation of a fresh entry `[i]`
when the key is new (lines 33-36 of `kasiski_examination.py`). -/
def addPos (d : List (List Char × List Nat)) (s : List Char) (i : Nat) :
    List (List Char × List Nat) :=
  updA s (fun ps => ps ++ [i]) [i] d

/-- The inner loop of `find_repeat_sequences`: for one substring length
`L`, scan `i in range(len(text) - L)` and record each substring. -/
def scanLength (text : List Char) (d : List (List Char × List Nat)) (L : Nat) :
    List (List Char × List Nat) :=
  (List.range (text.length - L)).foldl (fun d i => addPos d (subAt text i L) i) d

/-- The full double loop of `find_repeat_sequences`: lengths from
`min_length` to `len(text) // 2` inclusive. -/
def buildSequences (text : List Char) (min_length : Nat) :
    List (List Char × List Nat) :=
  (List.range' min_length (text.length / 2 + 1 - min_length)).foldl
    (scanLength text) []

/-- `find_repeat_sequences(text, min_length)`: argument check, double scan,
then keep only sequences with more than one recorded occurrence. -/
def find_repeat_sequences (text : List Char) (min_length : Nat) :
    Except Err (List (List Char × List Nat)) :=
  if min_length < 2 ∨ text.length / 2 ≤ min_length then
    Except.error Err.invalidArgument
  else
    Except.ok ((buildSequences text min_length).filter (fun p => 1 < p.2.length))

/-- Adjacent differences `positions[i+1] - positions[i]` of one offset
list. -/
def diffs : List Nat → List Nat
  | a :: b :: rest => (b - a) :: diffs (b :: rest)
  | _ => []

/-- `get_spaces(sequences)`: all adjacent-offset differences over all
sequences, in dict order. -/
def get_spaces (sequences : List (List Char × List Nat)) : List Nat :=
  sequences.flatMap (fun p => diffs p.2)

/-- The trial-division loop of `find_factors`: `i` runs upward from 2 while
`i*i <= number`; each divisor `i` adds both `i` and `number // i` to the
set, and finally `number` itself is added.  (Iterating `i` over
`range'(2, number)` and filtering by `i*i ≤ number` visits exactly the
iterations of the `while` loop, since `i*i ≤ number` forces `i ≤ number`.)
The set is a duplicate-free list in insertion order. -/
def find_factors_list (number : Nat) : List Nat :=
  insertOnce
    (((List.range' 2 number).filter (fun i => decide (i * i ≤ number))).foldl
      (fun acc i =>
        if number % i = 0 then insertOnce (insertOnce acc i) (number / i)
        else acc)
      [])
    number

/-- `find_factors(number)`: rejects `number ≤ 1`, otherwise returns the
factor set. -/
def find_factors (number : Nat) : Except Err (List Nat) :=
  if number ≤ 1 then Except.error Err.invalidArgument
  else Except.ok (find_factors_list number)

/-- `factors.extend(find_factors(distance))` over all spacings, stopping
at the first error exactly as the Python loop would. -/
def gatherFactors (spaces : List Nat) : Except Err (List Nat) :=
  spaces.foldlM (fun acc d => (find_factors d).map (fun l => acc ++ l)) []

/-- `key_lengths[factor] = key_lengths.get(factor, 0) + 1`. -/
def bump (d : List (Nat × Nat)) (f : Nat) : List (Nat × Nat) :=
  updA f (fun c => c + 1) 1 d

/-- Tally the factor multiset into an insertion-ordered count dict. -/
def tally (factors : List Nat) : List (Nat × Nat) := factors.foldl bump []

/-- Insert a pair into a list sorted by descending count, after every
entry with a strictly larger count and before every other entry. -/
def insertDesc (p : Nat × Nat) : List (Nat × Nat) → List (Nat × Nat)
  | [] => [p]
  | q :: qs => if p.2 < q.2 then q :: insertDesc p qs else p :: q :: qs

/-- Stable sort by count descending: the semantics of
`sorted(items, key=lambda x: x[1], reverse=True)` (Python's sort is
stable, and `reverse=True` reverses the comparison, not the result). -/
def sortDesc (l : List (Nat × Nat)) : List (Nat × Nat) := l.foldr insertDesc []

/-- `find_key_lengths(spaces, n)`: factorize every spacing, tally, then
sort by count descending; `heapq.nlargest(n, ...)` is by its documented
contract `sorted(..., reverse=True)[:n]`. -/
def find_key_lengths (spaces : List Nat) (n : Option Nat) :
    Except Err (List (Nat × Nat)) :=
  (gatherFactors spaces).map (fun factors =>
    let key_lengths := tally factors
    match n with
    | none => sortDesc key_lengths
    | some k => (sortDesc key_lengths).take k)

/-! ## `language.py` -/

/-- A language's character-frequency table (`dict` items in JSON order). -/
abbrev FreqTable := List (Char × ℚ)

/-- The `frequency_tables` directory: language name to frequency table. -/
abbrev Store := List (String × FreqTable)

/-- `_get_available_languages()`: the names present in the store. -/
def _get_available_languages (store : Store) : List String :=
  store.map Prod.fst

/-- `open(f'frequency_tables/{language}.json')` followed by `json.load`:
the table of the named language, or `notFound` when it does not exist. -/
def loadTable : Store → String → Except Err FreqTable
  | [], _ => Except.error Err.notFound
  | p :: rest, name =>
    if p.1 = name then Except.ok p.2 else loadTable rest name

/-- Load the tables of all requested languages, failing at the first
missing one, as the Python loop over `open(...)` does. -/
def loadTables (store : Store) : List String → Except Err (List (String × FreqTable))
  | [] => Except.ok []
  | l :: ls =>
    match loadTable store l with
    | Except.error e => Except.error e
    | Except.ok t =>
      match loadTables store ls with
      | Except.error e => Except.error e
      | Except.ok rest => Except.ok ((l, t) :: rest)

/-- `Counter(text.lower())[c]`: occurrences of `c` in the lowercased
text; `c in Counter(text.lower())` is `0 < textCount text c`. -/
def textCount (text : List Char) (c : Char) : Nat :=
  (text.map Char.toLower).count c

/-- The similarity accumulation of `detect_language` (lines 157-161):
over the table entries, for each character present in the text add
`|frequency - text_frequency[char]| / len(text)`. -/
def dl_similarity (frequency_table : FreqTable) (text : List Char) : ℚ :=
  frequency_table.foldl
    (fun similarity p =>
      if 0 < textCount text p.1 then
        similarity + |p.2 - (textCount text p.1 : ℚ)| / (text.length : ℚ)
      else similarity)
    0

/-- `detect_language(text, languages)`: resolve the language list
(auto-discovery when unspecified), load every table, and return
`1 - similarity` per language, in request order. -/
def detect_language (store : Store) (text : List Char)
    (languages : Option (List String)) : Except Err (List (String × ℚ)) :=
  let langs := match languages with
    | none => _get_available_languages store
    | some ls => ls
  match loadTables store langs with
  | Except.error e => Except.error e
  | Except.ok frequency_tables =>
    Except.ok (frequency_tables.map (fun p => (p.1, 1 - dl_similarity p.2 text)))

/-- The similarity accumulation of `is_typical` (lines 185-188), a
verbatim second copy of the same loop in the source. -/
def it_similarity (frequency_table : FreqTable) (text : List Char) : ℚ :=
  frequency_table.foldl
    (fun similarity p =>
      if 0 < textCount text p.1 then
        similarity + |p.2 - (textCount text p.1 : ℚ)| / (text.length : ℚ)
      else similarity)
    0

/-- `is_typical(text, language, threshold)`: availability check, load the
table, and compare `1 - similarity` with the threshold. -/
def is_typical (store : Store) (text : List Char) (language : String)
    (threshold : ℚ) : Except Err Bool :=
  if language ∈ _get_available_languages store then
    match loadTable store language with
    | Except.error e => Except.error e
    | Except.ok frequency_table =>
      Except.ok (decide (1 - it_similarity frequency_table text > threshold))
  else
    Except.error Err.notFound

/-- `k` occurs verbatim in `text` at offset `j`. -/
def occursAt (text k : List Char) (j : Nat) : Prop :=
  j + k.length ≤ text.length ∧ subAt text j k.length = k

instance (text k : List Char) (j : Nat) : Decidable (occursAt text k j) := by
  unfold occursAt; infer_instance

/-- All offsets strictly below `len(text) - len(k)` at which `k` occurs:
the offsets the scan of `find_repeat_sequences` can record. -/
def positionsOf (text k : List Char) : List Nat :=
  (List.range (text.length - k.length)).filter
    (fun i => decide (subAt text i k.length = k))

/-! ## Lemmas about the generic dict operations -/

theorem lookA_updA_self {α β : Type} [DecidableEq α] (d : List (α × β))
    (k : α) (f : β → β) (w0 : β) :
    lookA w0 (updA k f (f w0) d) k = f (lookA w0 d k) := by
  induction d with
  | nil => simp [updA, lookA]
  | cons p rest ih =>
    by_cases h : p.1 = k
    · simp [updA, lookA, h]
    · simp [updA, lookA, h, ih]

theorem keysOf_nil {α β : Type} : keysOf ([] : List (α × β)) = [] := rfl

theorem keysOf_cons {α β : Type} (p : α × β) (d : List (α × β)) :
    keysOf (p :: d) = p.1 :: keysOf d := rfl

theorem updA_cons_hit {α β : Type} [DecidableEq α] (k : α) (f : β → β)
    (v0 : β) (p : α × β) (rest : List (α × β)) (hp : p.1 = k) :
    updA k f v0 (p :: rest) = (p.1, f p.2) :: rest := by
  simp [updA, hp]

theorem updA_cons_miss {α β : Type} [DecidableEq α] (k : α) (f : β → β)
    (v0 : β) (p : α × β) (rest : List (α × β)) (hp : ¬ p.1 = k) :
    updA k f v0 (p :: rest) = p :: updA k f v0 rest := by
  simp [updA, hp]

theorem lookA_updA_ne {α β : Type} [DecidableEq α] (d : List (α × β))
    (k k' : α) (f : β → β) (v0 w0 : β) (h : k' ≠ k) :
    lookA w0 (updA k f v0 d) k' = lookA w0 d k' := by
  have hkk : ¬ k = k' := fun he => h he.symm
  induction d with
  | nil => simp [updA, lookA, hkk]
  | cons p rest ih =>
    by_cases hp : p.1 = k
    · have hp' : ¬ p.1 = k' := fun he => h (he.symm.trans hp)
      rw [updA_cons_hit k f v0 p rest hp]
      simp [lookA, hp']
    · rw [updA_cons_miss k f v0 p rest hp]
      by_cases hq : p.1 = k' <;> simp [lookA, hq, ih]

theorem mem_keysOf_updA {α β : Type} [DecidableEq α] (d : List (α × β))
    (k a : α) (f : β → β) (v0 : β) :
    a ∈ keysOf (updA k f v0 d) ↔ a ∈ keysOf d ∨ a = k := by
  induction d with
  | nil => simp [updA, keysOf]
  | cons p rest ih =>
    by_cases hp : p.1 = k
    · rw [updA_cons_hit k f v0 p rest hp, keysOf_cons, keysOf_cons]
      simp only [List.mem_cons]
      constructor
      · rintro (h1 | h1)
        · exact Or.inl (Or.inl h1)
        · exact Or.inl (Or.inr h1)
      · rintro ((h1 | h1) | h1)
        · exact Or.inl h1
        · exact Or.inr h1
        · exact Or.inl (h1.trans hp.symm)
    · rw [updA_cons_miss k f v0 p rest hp, keysOf_cons, keysOf_cons]
      simp only [List.mem_cons, ih]
      tauto

theorem nodup_keysOf_updA {α β : Type} [DecidableEq α] (d : List (α × β))
    (k : α) (f : β → β) (v0 : β) (h : (keysOf d).Nodup) :
    (keysOf (updA k f v0 d)).Nodup := by
  induction d with
  | nil => simp [updA, keysOf]
  | cons p rest ih =>
    rw [keysOf_cons, List.nodup_cons] at h
    by_cases hp : p.1 = k
    · rw [updA_cons_hit k f v0 p rest hp, keysOf_cons]
      exact List.nodup_cons.mpr h
    · rw [updA_cons_miss k f v0 p rest hp, keysOf_cons]
      refine List.nodup_cons.mpr ⟨?_, ih h.2⟩
      rw [mem_keysOf_updA]
      rintro (hc | hc)
      · exact h.1 hc
      · exact hp hc

theorem snd_eq_lookA_of_mem {α β : Type} [DecidableEq α] (d : List (α × β))
    (hnd : (keysOf d).Nodup) (k : α) (v w0 : β) (hm : (k, v) ∈ d) :
    v = lookA w0 d k := by
  induction d with
  | nil => cases hm
  | cons p rest ih =>
    simp only [keysOf, List.map_cons, List.nodup_cons] at hnd
    rcases List.mem_cons.mp hm with h | h
    · rw [← h]
      simp [lookA]
    · have hk : k ∈ keysOf rest := List.mem_map.mpr ⟨(k, v), h, rfl⟩
      have hne : ¬ p.1 = k := fun he => hnd.1 (he ▸ hk)
      simp only [lookA, if_neg hne]
      exact ih hnd.2 h

theorem mem_of_mem_keysOf {α β : Type} [DecidableEq α] (d : List (α × β))
    (k : α) (w0 : β) (h : k ∈ keysOf d) : (k, lookA w0 d k) ∈ d := by
  induction d with
  | nil => simp [keysOf] at h
  | cons p rest ih =>
    by_cases hp : p.1 = k
    · subst hp
      simp [lookA]
    · simp only [keysOf, List.map_cons, List.mem_cons] at h
      rcases h with h | h
      · exact absurd h.symm hp
      · simp only [lookA, if_neg hp]
        exact List.mem_cons_of_mem _ (ih h)

theorem foldl_preserve {γ δ : Type} {P : γ → Prop} (step : γ → δ → γ)
    (hs : ∀ d x, P d → P (step d x)) :
    ∀ (is : List δ) (d : γ), P d → P (is.foldl step d) := by
  intro is
  induction is with
  | nil => intro d h; exact h
  | cons i is ih => intro d h; exact ih _ (hs d i h)

theorem mem_insertOnce (l : List Nat) (x a : Nat) :
    a ∈ insertOnce l x ↔ a ∈ l ∨ a = x := by
  unfold insertOnce
  split
  · rename_i h
    constructor
    · exact Or.inl
    · rintro (ha | rfl)
      · exact ha
      · exact h
  · simp

theorem nodup_insertOnce (l : List Nat) (x : Nat) (h : l.Nodup) :
    (insertOnce l x).Nodup := by
  unfold insertOnce
  split
  · exact h
  · rename_i hx
    simp [List.nodup_append, h, hx]

/-! ## `find_factors` produces exactly the divisors greater than 1 -/

theorem mem_ffoldl (number : Nat) (is : List Nat) :
    ∀ (acc : List Nat) (x : Nat),
      x ∈ is.foldl
          (fun acc i =>
            if number % i = 0 then insertOnce (insertOnce acc i) (number / i)
            else acc)
          acc
        ↔ x ∈ acc ∨ ∃ i ∈ is, number % i = 0 ∧ (x = i ∨ x = number / i) := by
  induction is with
  | nil => intro acc x; simp
  | cons i is ih =>
    intro acc x
    rw [List.foldl_cons]
    by_cases hd : number % i = 0
    · rw [if_pos hd, ih]
      constructor
      · rintro (hx | ⟨j, hj, hjm, hjx⟩)
        · rw [mem_insertOnce, mem_insertOnce] at hx
          rcases hx with (hx | hx) | hx
          · exact Or.inl hx
          · exact Or.inr ⟨i, List.mem_cons_self i is, hd, Or.inl hx⟩
          · exact Or.inr ⟨i, List.mem_cons_self i is, hd, Or.inr hx⟩
        · exact Or.inr ⟨j, List.mem_cons_of_mem i hj, hjm, hjx⟩
      · rintro (hx | ⟨j, hj, hjm, hjx⟩)
        · refine Or.inl ?_
          rw [mem_insertOnce, mem_insertOnce]
          exact Or.inl (Or.inl hx)
        · rcases List.mem_cons.mp hj with rfl | hj'
          · refine Or.inl ?_
            rw [mem_insertOnce, mem_insertOnce]
            rcases hjx with rfl | rfl
            · exact Or.inl (Or.inr rfl)
            · exact Or.inr rfl
          · exact Or.inr ⟨j, hj', hjm, hjx⟩
    · rw [if_neg hd, ih]
      constructor
      · rintro (hx | ⟨j, hj, hjm, hjx⟩)
        · exact Or.inl hx
        · exact Or.inr ⟨j, List.mem_cons_of_mem i hj, hjm, hjx⟩
      · rintro (hx | ⟨j, hj, hjm, hjx⟩)
        · exact Or.inl hx
        · rcases List.mem_cons.mp hj with rfl | hj'
          · exact absurd hjm hd
          · exact Or.inr ⟨j, hj', hjm, hjx⟩

theorem nodup_find_factors_list (number : Nat) :
    (find_factors_list number).Nodup := by
  unfold find_factors_list
  apply nodup_insertOnce
  apply foldl_preserve
    (fun acc i =>
      if number % i = 0 then insertOnce (insertOnce acc i) (number / i)
      else acc)
    (fun d x hd => by
      show (if number % x = 0 then insertOnce (insertOnce d x) (number / x)
        else d).Nodup
      by_cases hmod : number % x = 0
      · rw [if_pos hmod]
        exact nodup_insertOnce _ _ (nodup_insertOnce _ _ hd)
      · rwa [if_neg hmod])
  exact List.nodup_nil

theorem mem_find_factors_list (number : Nat) (hn : 1 < number) (f : Nat) :
    f ∈ find_factors_list number ↔ f ∣ number ∧ 1 < f := by
  unfold find_factors_list
  rw [mem_insertOnce, mem_ffoldl]
  simp only [List.mem_filter, List.mem_range'_1, decide_eq_true_eq,
    List.not_mem_nil, false_or]
  constructor
  · rintro (⟨i, ⟨⟨hi2, _⟩, hii⟩, hmod, hf⟩ | rfl)
    · have hidvd : i ∣ number := Nat.dvd_of_mod_eq_zero hmod
      rcases hf with rfl | rfl
      · exact ⟨hidvd, by omega⟩
      · refine ⟨Nat.div_dvd_of_dvd hidvd, ?_⟩
        have hle : i ≤ number / i := (Nat.le_div_iff_mul_le (by omega)).mpr hii
        revert hle
        generalize number / i = q
        intro hle
        omega
    · exact ⟨dvd_refl _, hn⟩
  · rintro ⟨hdvd, hf1⟩
    by_cases hfn : f = number
    · exact Or.inr hfn
    · left
      have hfl : f < number :=
        lt_of_le_of_ne (Nat.le_of_dvd (by omega) hdvd) hfn
      by_cases hsq : f * f ≤ number
      · refine ⟨f, ⟨⟨?_, ?_⟩, hsq⟩, Nat.mod_eq_zero_of_dvd hdvd, Or.inl rfl⟩
        · omega
        · omega
      · have hk : number = f * (number / f) := (Nat.mul_div_cancel' hdvd).symm
        have hq0 : number / f ≠ 0 := by
          intro h0; rw [h0, Nat.mul_zero] at hk; omega
        have hq1 : number / f ≠ 1 := by
          intro h1; rw [h1, Nat.mul_one] at hk; omega
        have hlt : number / f < f :=
          (Nat.div_lt_iff_lt_mul (by omega : 0 < f)).mpr (by omega)
        have hii : (number / f) * (number / f) ≤ number := by
          calc (number / f) * (number / f)
              ≤ f * (number / f) := Nat.mul_le_mul_right _ (Nat.le_of_lt hlt)
            _ = number := hk.symm
        have hmod : number % (number / f) = 0 :=
          Nat.mod_eq_zero_of_dvd (Nat.div_dvd_of_dvd hdvd)
        have hdd : number / (number / f) = f :=
          Nat.div_div_self hdvd (by omega)
        have hself : number / f ≤ number := Nat.div_le_self number f
        refine ⟨number / f, ⟨⟨?_, ?_⟩, hii⟩, hmod, Or.inr hdd.symm⟩
        · have h0 := hq0
          have h1 := hq1
          revert h0 h1
          generalize number / f = q
          intro h0 h1
          omega
        · have h0 := hself
          revert h0
          generalize number / f = q
          intro h0
          omega

/-! ## Tallying the factor multiset -/

theorem lookA_bump_self (d : List (Nat × Nat)) (f : Nat) :
    lookA 0 (bump d f) f = lookA 0 d f + 1 :=
  lookA_updA_self d f (fun c => c + 1) 0

theorem lookA_bump_ne (d : List (Nat × Nat)) (f k : Nat) (h : k ≠ f) :
    lookA 0 (bump d f) k = lookA 0 d k :=
  lookA_updA_ne d f k (fun c => c + 1) 1 0 h

theorem lookA_tally_foldl (fs : List Nat) :
    ∀ (d : List (Nat × Nat)) (k : Nat),
      lookA 0 (fs.foldl bump d) k = lookA 0 d k + fs.count k := by
  induction fs with
  | nil => intro d k; simp
  | cons f fs ih =>
    intro d k
    rw [List.foldl_cons, ih, List.count_cons]
    by_cases hf : k = f
    · subst hf
      rw [lookA_bump_self]
      simp only [beq_self_eq_true, if_true]
      omega
    · rw [lookA_bump_ne d f k hf]
      have hbeq : (f == k) = false :=
        beq_eq_false_iff_ne.mpr (fun he => hf he.symm)
      rw [hbeq]
      simp

theorem mem_keysOf_bump_foldl (fs : List Nat) :
    ∀ (d : List (Nat × Nat)) (k : Nat),
      k ∈ keysOf (fs.foldl bump d) ↔ k ∈ keysOf d ∨ k ∈ fs := by
  induction fs with
  | nil => intro d k; simp
  | cons f fs ih =>
    intro d k
    rw [List.foldl_cons, ih]
    unfold bump
    rw [mem_keysOf_updA]
    simp only [List.mem_cons]
    tauto

theorem nodup_keysOf_tally (fs : List Nat) : (keysOf (tally fs)).Nodup := by
  unfold tally
  apply foldl_preserve bump (fun d x hd => nodup_keysOf_updA d x _ _ hd)
  simp [keysOf]

theorem lookA_tally (fs : List Nat) (k : Nat) :
    lookA 0 (tally fs) k = fs.count k := by
  unfold tally
  rw [lookA_tally_foldl]
  simp [lookA]

theorem mem_keysOf_tally (fs : List Nat) (k : Nat) :
    k ∈ keysOf (tally fs) ↔ k ∈ fs := by
  unfold tally
  rw [mem_keysOf_bump_foldl]
  simp [keysOf]

/-! ## The stable descending sort -/

theorem insertDesc_perm (p : Nat × Nat) (l : List (Nat × Nat)) :
    (insertDesc p l).Perm (p :: l) := by
  induction l with
  | nil => exact List.Perm.refl _
  | cons q qs ih =>
    unfold insertDesc
    split
    · exact (ih.cons q).trans (List.Perm.swap p q qs)
    · exact List.Perm.refl _

theorem sortDesc_perm (l : List (Nat × Nat)) : (sortDesc l).Perm l := by
  induction l with
  | nil => exact List.Perm.refl _
  | cons p ps ih =>
    unfold sortDesc at *
    rw [List.foldr_cons]
    exact (insertDesc_perm p _).trans (ih.cons p)

theorem pairwise_insertDesc (p : Nat × Nat) (l : List (Nat × Nat))
    (h : List.Pairwise (fun a b : Nat × Nat => b.2 ≤ a.2) l) :
    List.Pairwise (fun a b : Nat × Nat => b.2 ≤ a.2) (insertDesc p l) := by
  induction l with
  | nil => simp [insertDesc]
  | cons q qs ih =>
    rw [List.pairwise_cons] at h
    unfold insertDesc
    split
    · rename_i hlt
      refine List.pairwise_cons.mpr ⟨?_, ih h.2⟩
      intro b hb
      rcases List.mem_cons.mp ((insertDesc_perm p qs).mem_iff.mp hb) with rfl | hb'
      · omega
      · exact h.1 b hb'
    · rename_i hge
      refine List.pairwise_cons.mpr ⟨?_, List.pairwise_cons.mpr h⟩
      intro b hb
      rcases List.mem_cons.mp hb with rfl | hb'
      · omega
      · exact le_trans (h.1 b hb') (by omega)

theorem pairwise_sortDesc (l : List (Nat × Nat)) :
    List.Pairwise (fun a b : Nat × Nat => b.2 ≤ a.2) (sortDesc l) := by
  induction l with
  | nil => simp [sortDesc]
  | cons p ps ih =>
    unfold sortDesc at *
    rw [List.foldr_cons]
    exact pairwise_insertDesc p _ ih

theorem filter_insertDesc (p : Nat × Nat) (l : List (Nat × Nat)) (c : Nat) :
    (insertDesc p l).filter (fun q => decide (q.2 = c))
      = if p.2 = c then p :: l.filter (fun q => decide (q.2 = c))
        else l.filter (fun q => decide (q.2 = c)) := by
  induction l with
  | nil =>
    show List.filter _ [p] = _
    by_cases hc : p.2 = c
    · rw [List.filter_cons_of_pos (by simpa using hc), if_pos hc]
    · rw [List.filter_cons_of_neg (by simpa using hc), if_neg hc]
  | cons q qs ih =>
    unfold insertDesc
    split
    · rename_i hlt
      by_cases hq : q.2 = c
      · have hpc : ¬ p.2 = c := by omega
        rw [List.filter_cons_of_pos (by simpa using hq), ih, if_neg hpc,
          if_neg hpc, List.filter_cons_of_pos (by simpa using hq)]
      · rw [List.filter_cons_of_neg (by simpa using hq), ih,
          List.filter_cons_of_neg (by simpa using hq)]
    · rename_i hge
      by_cases hpc : p.2 = c
      · rw [List.filter_cons_of_pos (by simpa using hpc), if_pos hpc]
      · rw [List.filter_cons_of_neg (by simpa using hpc), if_neg hpc]

theorem filter_sortDesc (l : List (Nat × Nat)) (c : Nat) :
    (sortDesc l).filter (fun q => decide (q.2 = c))
      = l.filter (fun q => decide (q.2 = c)) := by
  induction l with
  | nil => rfl
  | cons p ps ih =>
    unfold sortDesc at *
    rw [List.foldr_cons, filter_insertDesc, List.filter_cons]
    by_cases hpc : p.2 = c <;> simp [hpc, ih]

/-! ## Flattening the factor lists -/

theorem gatherFactors_aux (spaces : List Nat) :
    ∀ acc : List Nat, (∀ s ∈ spaces, 1 < s) →
      List.foldlM (fun acc d => (find_factors d).map (fun l => acc ++ l)) acc
          spaces
        = Except.ok (acc ++ spaces.flatMap find_factors_list) := by
  induction spaces with
  | nil =>
    intro acc _
    rw [List.flatMap_nil, List.append_nil]
    rfl
  | cons s rest ih =>
    intro acc h
    have hs1 : 1 < s := h s (List.mem_cons_self s rest)
    have hs : find_factors s = Except.ok (find_factors_list s) := by
      unfold find_factors
      rw [if_neg (by omega)]
    rw [List.foldlM_cons, hs]
    show List.foldlM _ (acc ++ find_factors_list s) rest
        = Except.ok (acc ++ (s :: rest).flatMap find_factors_list)
    rw [ih _ (fun x hx => h x (List.mem_cons_of_mem s hx)),
      List.flatMap_cons, List.append_assoc]

theorem gatherFactors_ok (spaces : List Nat) (h : ∀ s ∈ spaces, 1 < s) :
    gatherFactors spaces = Except.ok (spaces.flatMap find_factors_list) := by
  unfold gatherFactors
  simpa using gatherFactors_aux spaces [] h

theorem count_flatMap_ffl (spaces : List Nat) (h : ∀ s ∈ spaces, 1 < s)
    (f : Nat) (hf : 2 ≤ f) :
    (spaces.flatMap find_factors_list).count f
      = spaces.countP (fun s => decide (f ∣ s)) := by
  induction spaces with
  | nil => simp
  | cons s rest ih =>
    rw [List.flatMap_cons, List.count_append, List.countP_cons,
      ih (fun x hx => h x (List.mem_cons_of_mem s hx))]
    have hs1 : 1 < s := h s (List.mem_cons_self s rest)
    by_cases hdvd : f ∣ s
    · have hmem : f ∈ find_factors_list s :=
        (mem_find_factors_list s hs1 f).mpr ⟨hdvd, by omega⟩
      rw [List.count_eq_one_of_mem (nodup_find_factors_list s) hmem]
      have hdec : decide (f ∣ s) = true := by simp [hdvd]
      rw [hdec, if_pos rfl]
      omega
    · have hnm : f ∉ find_factors_list s := fun hmem =>
        hdvd ((mem_find_factors_list s hs1 f).mp hmem).1
      rw [List.count_eq_zero.mpr hnm]
      have hdec : decide (f ∣ s) = false := by simp [hdvd]
      rw [hdec, if_neg Bool.false_ne_true]
      omega

theorem mem_flatMap_ffl (spaces : List Nat) (h : ∀ s ∈ spaces, 1 < s)
    (f : Nat) :
    f ∈ spaces.flatMap find_factors_list ↔ (2 ≤ f ∧ ∃ s ∈ spaces, f ∣ s) := by
  rw [List.mem_flatMap]
  constructor
  · rintro ⟨s, hs, hf⟩
    rcases (mem_find_factors_list s (h s hs) f).mp hf with ⟨hdvd, h1⟩
    exact ⟨by omega, s, hs, hdvd⟩
  · rintro ⟨h2, s, hs, hdvd⟩
    exact ⟨s, hs, (mem_find_factors_list s (h s hs) f).mpr ⟨hdvd, by omega⟩⟩

/-! ## The sequence scan of `find_repeat_sequences` -/

theorem lookA_addPos_self (d : List (List Char × List Nat)) (s : List Char)
    (i : Nat) : lookA [] (addPos d s i) s = lookA [] d s ++ [i] :=
  lookA_updA_self d s (fun ps => ps ++ [i]) []

theorem lookA_addPos_ne (d : List (List Char × List Nat)) (s t : List Char)
    (i : Nat) (h : t ≠ s) : lookA [] (addPos d s i) t = lookA [] d t :=
  lookA_updA_ne d s t (fun ps => ps ++ [i]) [i] [] h

theorem lookA_scan_foldl (text : List Char) (L : Nat) (is : List Nat) :
    ∀ (d : List (List Char × List Nat)) (k : List Char),
      lookA [] (is.foldl (fun d i => addPos d (subAt text i L) i) d) k
        = lookA [] d k ++ is.filter (fun i => decide (subAt text i L = k)) := by
  induction is with
  | nil => intro d k; simp
  | cons i is ih =>
    intro d k
    rw [List.foldl_cons, ih]
    by_cases hk : subAt text i L = k
    · rw [hk, lookA_addPos_self, List.filter_cons_of_pos (by simpa using hk),
        List.append_assoc]
      rfl
    · rw [lookA_addPos_ne d _ k i (fun he => hk he.symm),
        List.filter_cons_of_neg (by simpa using hk)]

theorem nodup_keysOf_buildSequences (text : List Char) (m : Nat) :
    (keysOf (buildSequences text m)).Nodup := by
  unfold buildSequences
  exact @foldl_preserve _ _ (fun d => (keysOf d).Nodup) (scanLength text)
    (fun d L hd => by
      unfold scanLength
      exact @foldl_preserve _ _ (fun d => (keysOf d).Nodup) _
        (fun d' i hd' => nodup_keysOf_updA d' _ _ _ hd') _ d hd)
    _ [] (by simp [keysOf])

theorem lookA_buildSequences (text : List Char) (m : Nat) (k : List Char) :
    lookA [] (buildSequences text m) k
      = (List.range' m (text.length / 2 + 1 - m)).flatMap
          (fun L => (List.range (text.length - L)).filter
            (fun i => decide (subAt text i L = k))) := by
  unfold buildSequences
  suffices haux : ∀ (Ls : List Nat) (d : List (List Char × List Nat)),
      lookA [] (Ls.foldl (scanLength text) d) k
        = lookA [] d k
          ++ Ls.flatMap (fun L => (List.range (text.length - L)).filter
              (fun i => decide (subAt text i L = k))) by
    simpa using haux _ []
  intro Ls
  induction Ls with
  | nil => intro d; simp
  | cons L Ls ih =>
    intro d
    rw [List.foldl_cons, ih]
    unfold scanLength
    rw [lookA_scan_foldl, List.flatMap_cons, List.append_assoc]

theorem length_subAt (text : List Char) (i L : Nat) (h : i + L ≤ text.length) :
    (subAt text i L).length = L := by
  unfold subAt
  rw [List.length_take, List.length_drop]
  omega

theorem filter_empty_of_length_ne (text : List Char) (L : Nat) (k : List Char)
    (h : L ≠ k.length) :
    (List.range (text.length - L)).filter
      (fun i => decide (subAt text i L = k)) = [] := by
  rw [List.filter_eq_nil_iff]
  intro i hi
  rw [List.mem_range] at hi
  simp only [decide_eq_true_eq]
  intro he
  have hlen : (subAt text i L).length = L := length_subAt text i L (by omega)
  rw [he] at hlen
  exact h hlen.symm

theorem flatMap_single (g : Nat → List Nat) (Ls : List Nat) (L0 : Nat)
    (hn : Ls.Nodup) (hz : ∀ L ∈ Ls, L ≠ L0 → g L = []) :
    Ls.flatMap g = if L0 ∈ Ls then g L0 else [] := by
  induction Ls with
  | nil => simp
  | cons L Ls ih =>
    rw [List.nodup_cons] at hn
    rw [List.flatMap_cons]
    by_cases hL : L = L0
    · subst hL
      rw [if_pos (List.mem_cons_self L Ls)]
      have hnil : Ls.flatMap g = [] :=
        List.flatMap_eq_nil_iff.mpr
          (fun x hx => hz x (List.mem_cons_of_mem L hx)
            (fun he => hn.1 (he ▸ hx)))
      rw [hnil, List.append_nil]
    · rw [hz L (List.mem_cons_self L Ls) hL, List.nil_append,
        ih hn.2 (fun x hx hne => hz x (List.mem_cons_of_mem L hx) hne)]
      have hiff : L0 ∈ L :: Ls ↔ L0 ∈ Ls := by
        constructor
        · intro hmem
          rcases List.mem_cons.mp hmem with he | he
          · exact absurd he.symm hL
          · exact he
        · exact List.mem_cons_of_mem L
      rw [if_congr hiff rfl rfl]

theorem mem_positionsOf (text k : List Char) (i : Nat) :
    i ∈ positionsOf text k
      ↔ i < text.length - k.length ∧ subAt text i k.length = k := by
  unfold positionsOf
  rw [List.mem_filter, List.mem_range]
  simp only [decide_eq_true_eq]

theorem pairwise_positionsOf (text k : List Char) :
    List.Pairwise (· < ·) (positionsOf text k) :=
  (List.pairwise_lt_range _).filter _

theorem occursAt_of_mem_positionsOf (text k : List Char) (i : Nat)
    (h : i ∈ positionsOf text k) : occursAt text k i := by
  rw [mem_positionsOf] at h
  exact ⟨by omega, h.2⟩

theorem occursAt_mem_or_last (text k : List Char) (j : Nat)
    (h : occursAt text k j) :
    j ∈ positionsOf text k ∨ j = text.length - k.length := by
  rcases h with ⟨hle, hsub⟩
  by_cases hj : j < text.length - k.length
  · exact Or.inl ((mem_positionsOf text k j).mpr ⟨hj, hsub⟩)
  · exact Or.inr (by omega)

theorem snd_eq_lookA_build (text : List Char) (m : Nat)
    (p : List Char × List Nat) (hp : p ∈ buildSequences text m) :
    p.2 = lookA [] (buildSequences text m) p.1 := by
  cases p with
  | mk k ps =>
    exact snd_eq_lookA_of_mem _ (nodup_keysOf_buildSequences text m) k ps [] hp

theorem entry_positions (text : List Char) (m : Nat)
    (hm2 : 2 ≤ m) (hm : m < text.length / 2) (p : List Char × List Nat)
    (hp : p ∈ buildSequences text m) (hlen : 1 < p.2.length) :
    p.2 = positionsOf text p.1 ∧ m ≤ p.1.length
      ∧ p.1.length ≤ text.length / 2 := by
  have hval := snd_eq_lookA_build text m p hp
  rw [lookA_buildSequences] at hval
  have hnod : (List.range' m (text.length / 2 + 1 - m)).Nodup :=
    List.Pairwise.imp (fun h => Nat.ne_of_lt h) (List.pairwise_lt_range' _ _)
  have hz : ∀ L ∈ List.range' m (text.length / 2 + 1 - m), L ≠ p.1.length →
      (List.range (text.length - L)).filter
        (fun i => decide (subAt text i L = p.1)) = [] :=
    fun L _ hne => filter_empty_of_length_ne text L p.1 hne
  rw [flatMap_single _ _ p.1.length hnod hz] at hval
  by_cases hmem : p.1.length ∈ List.range' m (text.length / 2 + 1 - m)
  · rw [if_pos hmem] at hval
    rw [List.mem_range'_1] at hmem
    exact ⟨hval, by omega, by omega⟩
  · rw [if_neg hmem] at hval
    rw [hval] at hlen
    simp at hlen

/-! ## Lemmas about `language.py` -/

theorem loadTable_cons (p : String × FreqTable) (rest : Store) (name : String) :
    loadTable (p :: rest) name
      = if p.1 = name then Except.ok p.2 else loadTable rest name := rfl

theorem loadTable_ok_of_mem (store : Store) (name : String)
    (h : name ∈ _get_available_languages store) :
    ∃ t, loadTable store name = Except.ok t := by
  induction store with
  | nil => simp [_get_available_languages] at h
  | cons p rest ih =>
    simp only [_get_available_languages, List.map_cons, List.mem_cons] at h
    by_cases hp : p.1 = name
    · exact ⟨p.2, by rw [loadTable_cons, if_pos hp]⟩
    · rcases h with he | he
      · exact absurd he.symm hp
      · rcases ih he with ⟨t, ht⟩
        exact ⟨t, by rw [loadTable_cons, if_neg hp, ht]⟩

theorem loadTable_not_mem (store : Store) (name : String)
    (h : name ∉ _get_available_languages store) :
    loadTable store name = Except.error Err.notFound := by
  induction store with
  | nil => rfl
  | cons p rest ih =>
    simp only [_get_available_languages, List.map_cons, List.mem_cons] at h
    push_neg at h
    rw [loadTable_cons, if_neg (fun he => h.1 he.symm)]
    exact ih h.2

theorem loadTable_error_eq (store : Store) (name : String) (e : Err)
    (h : loadTable store name = Except.error e) : e = Err.notFound := by
  induction store with
  | nil =>
    injection h with h'
    exact h'.symm
  | cons p rest ih =>
    rw [loadTable_cons] at h
    by_cases hp : p.1 = name
    · rw [if_pos hp] at h
      exact Except.noConfusion h
    · rw [if_neg hp] at h
      exact ih h

theorem loadTables_ok_of_all (store : Store) (langs : List String)
    (h : ∀ l ∈ langs, l ∈ _get_available_languages store) :
    ∃ ts, loadTables store langs = Except.ok ts := by
  induction langs with
  | nil => exact ⟨[], rfl⟩
  | cons l ls ih =>
    rcases loadTable_ok_of_mem store l (h l (List.mem_cons_self l ls))
      with ⟨t, ht⟩
    rcases ih (fun x hx => h x (List.mem_cons_of_mem l hx)) with ⟨ts, hts⟩
    exact ⟨(l, t) :: ts, by simp [loadTables, ht, hts]⟩

theorem loadTables_error_of_missing (store : Store) (langs : List String)
    (lang : String) (hmem : lang ∈ langs)
    (habs : lang ∉ _get_available_languages store) :
    loadTables store langs = Except.error Err.notFound := by
  induction langs with
  | nil => cases hmem
  | cons l ls ih =>
    rcases List.mem_cons.mp hmem with rfl | hmem'
    · simp [loadTables, loadTable_not_mem store lang habs]
    · cases hlt : loadTable store l with
      | error e =>
        have he := loadTable_error_eq store l e hlt
        subst he
        simp [loadTables, hlt]
      | ok t =>
        simp [loadTables, hlt, ih hmem']

theorem loadTables_single (store : Store) (lang : String) (t : FreqTable)
    (h : loadTable store lang = Except.ok t) :
    loadTables store [lang] = Except.ok [(lang, t)] := by
  simp [loadTables, h]

/-- The two verbatim copies of the similarity loop compute the same
value. -/
theorem similarity_copies_agree (frequency_table : FreqTable)
    (text : List Char) :
    it_similarity frequency_table text = dl_similarity frequency_table text :=
  rfl

theorem dl_similarity_eq_zero (frequency_table : FreqTable) (text : List Char)
    (h : ∀ p ∈ frequency_table, textCount text p.1 = 0) :
    dl_similarity frequency_table text = 0 := by
  unfold dl_similarity
  have haux : ∀ (tbl : FreqTable), (∀ p ∈ tbl, textCount text p.1 = 0) →
      ∀ (s : ℚ),
        tbl.foldl (fun similarity p =>
          if 0 < textCount text p.1 then
            similarity + |p.2 - (textCount text p.1 : ℚ)| / (text.length : ℚ)
          else similarity) s = s := by
    intro tbl
    induction tbl with
    | nil => intro _ s; rfl
    | cons p ps ih =>
      intro hz s
      have hp : textCount text p.1 = 0 := hz p (List.mem_cons_self p ps)
      simp only [List.foldl_cons, hp, lt_irrefl, if_false]
      exact ih (fun x hx => hz x (List.mem_cons_of_mem p hx)) s
  exact haux frequency_table h 0

theorem textCount_pos_length (text : List Char) (c : Char)
    (h : 0 < textCount text c) : 0 < text.length := by
  cases text with
  | nil => simp [textCount] at h
  | cons a as => simp

/-! ## Helper: the precondition branch of `find_repeat_sequences` -/

theorem find_repeat_sequences_ok_eq (text : List Char) (m : Nat)
    (hm2 : 2 ≤ m) (hm : m < text.length / 2) :
    find_repeat_sequences text m
      = Except.ok ((buildSequences text m).filter (fun p => 1 < p.2.length)) := by
  unfold find_repeat_sequences
  rw [if_neg (by omega)]

/-! ## Claim theorems -/

/-- C2: for every `n > 1`, `find_factors n` returns exactly the set of
divisors of `n` greater than 1, `n` included; in particular a prime `p`
yields exactly `{p}`, and 12 yields exactly `{2, 3, 4, 6, 12}`. -/
theorem find_factors_divisors :
    (∀ n : Nat, 1 < n → ∃ l, find_factors n = Except.ok l ∧ n ∈ l
      ∧ ∀ f : Nat, f ∈ l ↔ (f ∣ n ∧ 1 < f))
    ∧ (∀ p : Nat, Nat.Prime p → ∃ l, find_factors p = Except.ok l
      ∧ ∀ f : Nat, f ∈ l ↔ f = p)
    ∧ (∃ l, find_factors 12 = Except.ok l ∧ l.Perm [2, 3, 4, 6, 12]) := by
  have hok : ∀ n : Nat, 1 < n →
      find_factors n = Except.ok (find_factors_list n) := by
    intro n hn
    unfold find_factors
    rw [if_neg (by omega)]
  refine ⟨?_, ?_, ?_⟩
  · intro n hn
    exact ⟨find_factors_list n, hok n hn,
      (mem_find_factors_list n hn n).mpr ⟨dvd_refl n, hn⟩,
      fun f => mem_find_factors_list n hn f⟩
  · intro p hp
    refine ⟨find_factors_list p, hok p hp.one_lt, fun f => ?_⟩
    rw [mem_find_factors_list p hp.one_lt f]
    constructor
    · rintro ⟨hdvd, h1⟩
      rcases Nat.Prime.eq_one_or_self_of_dvd hp f hdvd with h | h
      · omega
      · exact h
    · rintro rfl
      exact ⟨dvd_refl f, hp.one_lt⟩
  · exact ⟨find_factors_list 12, hok 12 (by omega), by decide⟩

/-- Witness for C2 at the concrete prime input 7. -/
theorem find_factors_divisors_witness :
    ∃ l, find_factors 7 = Except.ok l ∧ 7 ∈ l
      ∧ ∀ f : Nat, f ∈ l ↔ (f ∣ 7 ∧ 1 < f) :=
  find_factors_divisors.1 7 (by decide)

/-- C3: for spacings all greater than 1, `find_key_lengths spacings none`
has exactly one pair per factor `f ≥ 2` dividing some spacing, each count
is the number of spacings that factor divides, the counts are
non-increasing, and entries with equal counts keep the order in which the
factors were first encountered during tallying. -/
theorem find_key_lengths_none_spec (spaces : List Nat)
    (h : ∀ s ∈ spaces, 1 < s) :
    ∃ r, find_key_lengths spaces none = Except.ok r
      ∧ (keysOf r).Nodup
      ∧ (∀ f : Nat, f ∈ keysOf r ↔ (2 ≤ f ∧ ∃ s ∈ spaces, f ∣ s))
      ∧ (∀ p ∈ r, p.2 = spaces.countP (fun s => decide (p.1 ∣ s)))
      ∧ List.Pairwise (fun p q : Nat × Nat => q.2 ≤ p.2) r
      ∧ (∀ c : Nat, r.filter (fun p => decide (p.2 = c))
          = (tally (spaces.flatMap find_factors_list)).filter
              (fun p => decide (p.2 = c))) := by
  have hr : find_key_lengths spaces none
      = Except.ok (sortDesc (tally (spaces.flatMap find_factors_list))) := by
    unfold find_key_lengths
    rw [gatherFactors_ok spaces h]
    rfl
  have hperm := (sortDesc_perm (tally (spaces.flatMap find_factors_list))).map
    Prod.fst
  refine ⟨sortDesc (tally (spaces.flatMap find_factors_list)), hr, ?_, ?_,
    ?_, pairwise_sortDesc _, fun c => filter_sortDesc _ c⟩
  · exact hperm.nodup_iff.mpr (nodup_keysOf_tally _)
  · intro f
    constructor
    · intro hf
      have hmem : f ∈ keysOf (tally (spaces.flatMap find_factors_list)) :=
        hperm.mem_iff.mp hf
      rw [mem_keysOf_tally] at hmem
      exact (mem_flatMap_ffl spaces h f).mp hmem
    · intro hf
      apply hperm.mem_iff.mpr
      show f ∈ keysOf (tally (spaces.flatMap find_factors_list))
      rw [mem_keysOf_tally]
      exact (mem_flatMap_ffl spaces h f).mpr hf
  · rintro ⟨k, c⟩ hp
    have hpT : (k, c) ∈ tally (spaces.flatMap find_factors_list) :=
      (sortDesc_perm _).mem_iff.mp hp
    have hfk : k ∈ keysOf (tally (spaces.flatMap find_factors_list)) :=
      List.mem_map.mpr ⟨(k, c), hpT, rfl⟩
    have hf2 : 2 ≤ k := by
      rw [mem_keysOf_tally] at hfk
      exact ((mem_flatMap_ffl spaces h k).mp hfk).1
    have hval := snd_eq_lookA_of_mem _ (nodup_keysOf_tally _) k c 0 hpT
    rw [lookA_tally] at hval
    show c = spaces.countP (fun s => decide (k ∣ s))
    rw [hval, count_flatMap_ffl spaces h k hf2]

/-- Witness for C3 at the concrete spacing list [6, 4]. -/
theorem find_key_lengths_none_spec_witness :
    ∃ r, find_key_lengths [6, 4] none = Except.ok r
      ∧ (keysOf r).Nodup
      ∧ (∀ f : Nat, f ∈ keysOf r ↔ (2 ≤ f ∧ ∃ s ∈ [6, 4], f ∣ s))
      ∧ (∀ p ∈ r, p.2 = List.countP (fun s => decide (p.1 ∣ s)) [6, 4])
      ∧ List.Pairwise (fun p q : Nat × Nat => q.2 ≤ p.2) r
      ∧ (∀ c : Nat, r.filter (fun p => decide (p.2 = c))
          = (tally (List.flatMap [6, 4] find_factors_list)).filter
              (fun p => decide (p.2 = c))) :=
  find_key_lengths_none_spec [6, 4] (by decide)

/-- C4: `find_repeat_sequences` raises InvalidArgument exactly when
`min_length < 2` or `min_length ≥ len(text) // 2`, and under the
precondition `2 ≤ min_length < len(text) // 2` it returns normally. -/
theorem find_repeat_sequences_precondition (text : List Char) (m : Nat) :
    (find_repeat_sequences text m = Except.error Err.invalidArgument
      ↔ (m < 2 ∨ text.length / 2 ≤ m))
    ∧ (2 ≤ m → m < text.length / 2 →
        ∃ r, find_repeat_sequences text m = Except.ok r) := by
  constructor
  · unfold find_repeat_sequences
    split
    · rename_i hcond
      exact ⟨fun _ => hcond, fun _ => rfl⟩
    · rename_i hcond
      exact ⟨fun hx => Except.noConfusion hx, fun hx => absurd hx hcond⟩
  · intro h2 hlt
    exact ⟨_, find_repeat_sequences_ok_eq text m h2 hlt⟩

/-- Witness for C4: out-of-range 1 raises; an in-range call returns. -/
theorem find_repeat_sequences_precondition_witness :
    find_repeat_sequences ['a','b','c','d','e','f'] 1
      = Except.error Err.invalidArgument
    ∧ ∃ r, find_repeat_sequences ['a','b','c','a','b','c','d','e'] 3
        = Except.ok r :=
  ⟨(find_repeat_sequences_precondition ['a','b','c','d','e','f'] 1).1.mpr
      (Or.inl (by decide)),
    (find_repeat_sequences_precondition ['a','b','c','a','b','c','d','e'] 3).2
      (by decide) (by decide)⟩

/-- C1 (amended): under the precondition, every key of the map returned by
`find_repeat_sequences` occurs verbatim in the text at every listed
offset, and occurs at no other offset except possibly the final start
position `len(text) - len(key)`, which the scan `range(len(text) - L)`
never examines. -/
theorem find_repeat_sequences_occurrences (text : List Char) (m : Nat)
    (hm2 : 2 ≤ m) (hm : m < text.length / 2) :
    ∃ r, find_repeat_sequences text m = Except.ok r ∧
      ∀ p ∈ r, (∀ i ∈ p.2, occursAt text p.1 i) ∧
        ∀ j, occursAt text p.1 j → j ∈ p.2 ∨ j = text.length - p.1.length := by
  refine ⟨_, find_repeat_sequences_ok_eq text m hm2 hm, ?_⟩
  intro p hp
  rw [List.mem_filter] at hp
  have hlen : 1 < p.2.length := by simpa using hp.2
  obtain ⟨hpos, _, _⟩ := entry_positions text m hm2 hm p hp.1 hlen
  constructor
  · intro i hi
    rw [hpos] at hi
    exact occursAt_of_mem_positionsOf text p.1 i hi
  · intro j hj
    rcases occursAt_mem_or_last text p.1 j hj with hmem | hlast
    · exact Or.inl (by rw [hpos]; exact hmem)
    · exact Or.inr hlast

/-- Counterexample for C1 as stated: text "aaaaaa" with min length 2
satisfies the precondition, yet the returned key "aa" lists offsets
[0, 1, 2, 3] while "aa" also occurs at the unlisted offset 4 (the final
start position, which the scan never visits). -/
theorem find_repeat_sequences_misses_last_offset :
    2 ≤ 2 ∧ 2 < (['a','a','a','a','a','a'] : List Char).length / 2
    ∧ ¬ (∀ r, find_repeat_sequences ['a','a','a','a','a','a'] 2
          = Except.ok r →
        ∀ p ∈ r, ∀ j, occursAt ['a','a','a','a','a','a'] p.1 j → j ∈ p.2) := by
  refine ⟨by decide, by decide, fun hall => ?_⟩
  have h4 := hall [(['a','a'], [0,1,2,3]), (['a','a','a'], [0,1,2])] rfl
    (['a','a'], [0,1,2,3]) (by decide) 4 (by decide)
  exact absurd h4 (by decide)

/-- Witness for C1 (amended) at text "abcabcde" with min length 3. -/
theorem find_repeat_sequences_occurrences_witness :
    ∃ r, find_repeat_sequences ['a','b','c','a','b','c','d','e'] 3
        = Except.ok r ∧
      ∀ p ∈ r, (∀ i ∈ p.2, occursAt ['a','b','c','a','b','c','d','e'] p.1 i) ∧
        ∀ j, occursAt ['a','b','c','a','b','c','d','e'] p.1 j →
          j ∈ p.2
            ∨ j = (['a','b','c','a','b','c','d','e'] : List Char).length
                - p.1.length :=
  find_repeat_sequences_occurrences ['a','b','c','a','b','c','d','e'] 3
    (by decide) (by decide)

/-- C5: under the precondition, the returned map's keys have lengths in
[min_length, len(text) // 2], every key has at least two offsets, and each
offset list is strictly increasing with all offsets inside
[0, len(text) - len(key)). -/
theorem find_repeat_sequences_invariant (text : List Char) (m : Nat)
    (hm2 : 2 ≤ m) (hm : m < text.length / 2) :
    ∃ r, find_repeat_sequences text m = Except.ok r ∧
      ∀ p ∈ r, (m ≤ p.1.length ∧ p.1.length ≤ text.length / 2)
        ∧ 2 ≤ p.2.length ∧ List.Pairwise (· < ·) p.2
        ∧ ∀ i ∈ p.2, i < text.length - p.1.length := by
  refine ⟨_, find_repeat_sequences_ok_eq text m hm2 hm, ?_⟩
  intro p hp
  rw [List.mem_filter] at hp
  have hlen : 1 < p.2.length := by simpa using hp.2
  obtain ⟨hpos, hml, hmu⟩ := entry_positions text m hm2 hm p hp.1 hlen
  refine ⟨⟨hml, hmu⟩, by omega, ?_, ?_⟩
  · rw [hpos]
    exact pairwise_positionsOf text p.1
  · intro i hi
    rw [hpos, mem_positionsOf] at hi
    exact hi.1

/-- Witness for C5 at text "abcabcde" with min length 3. -/
theorem find_repeat_sequences_invariant_witness :
    ∃ r, find_repeat_sequences ['a','b','c','a','b','c','d','e'] 3
        = Except.ok r ∧
      ∀ p ∈ r, (3 ≤ p.1.length
          ∧ p.1.length ≤ (['a','b','c','a','b','c','d','e'] : List Char).length / 2)
        ∧ 2 ≤ p.2.length ∧ List.Pairwise (· < ·) p.2
        ∧ ∀ i ∈ p.2,
            i < (['a','b','c','a','b','c','d','e'] : List Char).length
              - p.1.length :=
  find_repeat_sequences_invariant ['a','b','c','a','b','c','d','e'] 3
    (by decide) (by decide)

/-- C9: the pipeline is not total on inputs satisfying the
`find_repeat_sequences` precondition: on "aaaaaaaa" with the default
min length 3, `get_spaces` produces a spacing of 1 (adjacent repeats),
so `find_key_lengths(get_spaces(...), None)` raises InvalidArgument,
because `find_factors` rejects every number ≤ 1. -/
theorem pipeline_not_total_on_adjacent_repeats :
    (2 ≤ 3 ∧ 3 < (['a','a','a','a','a','a','a','a'] : List Char).length / 2)
    ∧ (∃ r, find_repeat_sequences ['a','a','a','a','a','a','a','a'] 3
          = Except.ok r ∧ 1 ∈ get_spaces r)
    ∧ (find_repeat_sequences ['a','a','a','a','a','a','a','a'] 3).bind
        (fun r => find_key_lengths (get_spaces r) none)
      = Except.error Err.invalidArgument := by
  refine ⟨⟨by decide, by decide⟩,
    ⟨[(['a','a','a'], [0,1,2,3,4]), (['a','a','a','a'], [0,1,2,3])],
      rfl, by decide⟩, rfl⟩

/-- C6: for any language present in the store and any threshold,
`is_typical` returns true exactly when the score that `detect_language`
computes for that single language exceeds the threshold: the two entry
points share identical scoring semantics. -/
theorem detect_language_is_typical_agree (store : Store) (text : List Char)
    (lang : String) (t : ℚ) (h : lang ∈ _get_available_languages store) :
    ∃ s : ℚ, detect_language store text (some [lang]) = Except.ok [(lang, s)]
      ∧ is_typical store text lang t = Except.ok (decide (s > t)) := by
  rcases loadTable_ok_of_mem store lang h with ⟨tbl, htbl⟩
  refine ⟨1 - dl_similarity tbl text, ?_, ?_⟩
  · simp only [detect_language, loadTables_single store lang tbl htbl,
      List.map_cons, List.map_nil]
  · simp only [is_typical, h, if_true, htbl, similarity_copies_agree]

/-- Witness for C6 at the one-language store [("en", [])]. -/
theorem detect_language_is_typical_agree_witness :
    ∃ s : ℚ, detect_language [("en", [])] [] (some ["en"])
        = Except.ok [("en", s)]
      ∧ is_typical [("en", [])] [] "en" 0 = Except.ok (decide (s > 0)) :=
  detect_language_is_typical_agree [("en", [])] [] "en" 0 (by decide)

/-- C7: an explicitly requested language that is absent from the store
makes `detect_language` fail fast with NotFound, while the auto-discovery
path (languages unspecified) enumerates only existing names and therefore
returns normally. -/
theorem detect_language_missing_language (store : Store) (text : List Char) :
    (∀ (langs : List String) (lang : String), lang ∈ langs →
      lang ∉ _get_available_languages store →
      detect_language store text (some langs) = Except.error Err.notFound)
    ∧ ∃ r, detect_language store text none = Except.ok r := by
  constructor
  · intro langs lang hmem habs
    simp only [detect_language,
      loadTables_error_of_missing store langs lang hmem habs]
  · rcases loadTables_ok_of_all store (_get_available_languages store)
      (fun l hl => hl) with ⟨ts, hts⟩
    exact ⟨ts.map (fun p => (p.1, 1 - dl_similarity p.2 text)), by
      simp only [detect_language, hts]⟩

/-- Witness for C7 at the store [("en", [])] and the missing name "de". -/
theorem detect_language_missing_language_witness :
    detect_language [("en", [])] [] (some ["de"]) = Except.error Err.notFound
    ∧ ∃ r, detect_language [("en", [])] [] none = Except.ok r :=
  ⟨(detect_language_missing_language [("en", [])] []).1 ["de"] "de"
      (by decide) (by decide),
    (detect_language_missing_language [("en", [])] []).2⟩

/-- C8: `is_typical` is monotone in the threshold: if it is true at
threshold t1 and t2 < t1, it is true at t2 as well (for a language
present in the store). -/
theorem is_typical_threshold_monotone (store : Store) (text : List Char)
    (lang : String) (t1 t2 : ℚ) (h : lang ∈ _get_available_languages store)
    (h1 : is_typical store text lang t1 = Except.ok true) (hlt : t2 < t1) :
    is_typical store text lang t2 = Except.ok true := by
  rcases loadTable_ok_of_mem store lang h with ⟨tbl, htbl⟩
  simp only [is_typical, h, if_true, htbl, Except.ok.injEq,
    decide_eq_true_eq, gt_iff_lt] at h1 ⊢
  exact lt_trans hlt h1

/-- Witness for C8: true at threshold 0 on the empty text, hence true at
the smaller threshold -1. -/
theorem is_typical_threshold_monotone_witness :
    is_typical [("en", [])] [] "en" (-1) = Except.ok true :=
  is_typical_threshold_monotone [("en", [])] [] "en" 0 (-1) (by decide)
    (by simp [is_typical, loadTable, it_similarity, _get_available_languages])
    (neg_lt_zero.mpr zero_lt_one)

/-- C10: the division by `len(text)` is performed only for characters
that occur in the text (so an executed division always has a positive
denominator), and a text sharing no character with the language's
frequency table — in particular the empty text — gets score exactly 1. -/
theorem detect_language_no_shared_chars_score_one (store : Store)
    (lang : String) (tbl : FreqTable) (text : List Char)
    (h : loadTable store lang = Except.ok tbl)
    (hshare : ∀ p ∈ tbl, textCount text p.1 = 0) :
    detect_language store text (some [lang]) = Except.ok [(lang, 1)]
    ∧ ∀ c : Char, 0 < textCount text c → 0 < text.length := by
  constructor
  · simp only [detect_language, loadTables_single store lang tbl h,
      List.map_cons, List.map_nil, dl_similarity_eq_zero tbl text hshare,
      sub_zero]
  · exact fun c hc => textCount_pos_length text c hc

/-- Witness for C10 at the empty text against a non-empty table. -/
theorem detect_language_no_shared_chars_score_one_witness :
    detect_language [("en", [('e', 1)])] [] (some ["en"])
      = Except.ok [("en", 1)]
    ∧ ∀ c : Char, 0 < textCount [] c → 0 < ([] : List Char).length :=
  detect_language_no_shared_chars_score_one [("en", [('e', 1)])] "en"
    [('e', 1)] [] rfl (by decide)
